import Mathlib

/-!
Verification of the blood-money Battle.net API client
(src/battle_net_api_client.rs).

The Rust module is embedded shallowly:

* machine integers (`u64`) become `Nat` (only order comparisons occur, so
  wrap-around never matters);
* `Vec<T>` becomes `List T`, `BTreeMap<String, V>` becomes an association
  list `List (String × V)` queried with `List.lookup`;
* a Rust panic (`unwrap` / `expect` on a missing value) is modelled by the
  `none` case of an `Option` result;
* the HTTP transport and the JSON decoder are external collaborators: they
  enter as explicit parameters (a stream of attempt outcomes, a decoding
  oracle `List Char → Option T`, a fetch oracle `String → …`).
-/

namespace BloodMoney

/-- The content we care about in the realm status response
(struct `RealmInfo` in the source). -/
structure RealmInfo where
  name : String
  slug : String
  connected_realms : List String
  deriving DecidableEq, Repr

/-- Content we care about in an item info response (struct `ItemInfo`). -/
structure ItemInfo where
  id : Nat
  name : String
  icon : String
  deriving DecidableEq, Repr

/-- The fields we care about in blizzard's auction reply
(struct `AuctionListing`). -/
structure AuctionListing where
  item : Nat
  buyout : Nat
  quantity : Nat
  deriving DecidableEq, Repr

/-- The JSON reply from the auction data status endpoint
(struct `AuctionDataPointer`: a url plus a lastModified stamp). -/
structure AuctionDataPointer where
  url : String
  lastModified : Nat
  deriving DecidableEq, Repr

/-- Struct `AuctionDataReply`: the `files` vector of pointers. -/
structure AuctionDataReply where
  files : List AuctionDataPointer
  deriving DecidableEq, Repr

/-- Struct `AuctionListingsReply`: loosely typed realm metadata plus the
auction listings themselves. -/
structure AuctionListingsReply where
  realms : List (List (String × String))
  auctions : List AuctionListing
  deriving DecidableEq, Repr

/-! ### ConnectedRealmClusterer (`process_connected_realms`) -/

/-- First element of a candidate group, as compared by the Rust sort
comparator `a.iter().next().unwrap()`. Total stand-in (default value for
the empty list); `process_connected_realms` only consults it on non-empty
groups, which its panic guard enforces. -/
def headKey (s : List String) : String := s.headD ""

/-- Lexicographic comparison of character lists by code point. Rust's
`String::cmp` compares UTF-8 bytes, and UTF-8 byte order coincides with
code-point order, so this is exactly the order the Rust comparator uses. -/
def charListLE : List Char → List Char → Bool
  | [], _ => true
  | _ :: _, [] => false
  | a :: as, b :: bs =>
    if a < b then true
    else if b < a then false
    else charListLE as bs

/-- String comparison as performed by the Rust sort comparator. -/
def strLE (a b : String) : Prop := charListLE a.data b.data = true

instance : DecidableRel strLE := fun a b =>
  inferInstanceAs (Decidable (charListLE a.data b.data = true))

theorem charListLE_cons_iff {x y : Char} {xs ys : List Char} :
    charListLE (x :: xs) (y :: ys) = true ↔
      x < y ∨ (x = y ∧ charListLE xs ys = true) := by
  by_cases hxy : x < y
  · simp [charListLE, hxy]
  · by_cases hyx : y < x
    · simp only [charListLE, if_neg hxy, if_pos hyx]
      constructor
      · intro h; exact absurd h (by simp)
      · rintro (h | ⟨h, h'⟩)
        · exact absurd h hxy
        · exact absurd (h ▸ hyx) (lt_irrefl x)
    · have heq : x = y := le_antisymm (not_lt.mp hyx) (not_lt.mp hxy)
      simp [charListLE, hxy, hyx, heq]

theorem charListLE_total : ∀ a b, charListLE a b = true ∨ charListLE b a = true := by
  intro a
  induction a with
  | nil => intro b; left; rfl
  | cons x xs ih =>
    intro b
    cases b with
    | nil => right; rfl
    | cons y ys =>
      rcases lt_trichotomy x y with h | h | h
      · left; exact charListLE_cons_iff.mpr (Or.inl h)
      · rcases ih ys with h' | h'
        · left; exact charListLE_cons_iff.mpr (Or.inr ⟨h, h'⟩)
        · right; exact charListLE_cons_iff.mpr (Or.inr ⟨h.symm, h'⟩)
      · right; exact charListLE_cons_iff.mpr (Or.inl h)

theorem charListLE_trans : ∀ a b c, charListLE a b = true →
    charListLE b c = true → charListLE a c = true := by
  intro a
  induction a with
  | nil => intro b c _ _; rfl
  | cons x xs ih =>
    intro b c hab hbc
    cases b with
    | nil => cases hab
    | cons y ys =>
      cases c with
      | nil => cases hbc
      | cons z zs =>
        rcases charListLE_cons_iff.mp hab with h1 | ⟨h1, h1'⟩ <;>
          rcases charListLE_cons_iff.mp hbc with h2 | ⟨h2, h2'⟩
        · exact charListLE_cons_iff.mpr (Or.inl (lt_trans h1 h2))
        · exact charListLE_cons_iff.mpr (Or.inl (h2 ▸ h1))
        · exact charListLE_cons_iff.mpr (Or.inl (h1 ▸ h2))
        · exact charListLE_cons_iff.mpr (Or.inr ⟨h1.trans h2, ih ys zs h1' h2'⟩)

theorem charListLE_antisymm : ∀ a b, charListLE a b = true →
    charListLE b a = true → a = b := by
  intro a
  induction a with
  | nil => intro b _ hba; cases b with
    | nil => rfl
    | cons y ys => cases hba
  | cons x xs ih =>
    intro b hab hba
    cases b with
    | nil => cases hab
    | cons y ys =>
      rcases charListLE_cons_iff.mp hab with h1 | ⟨h1, h1'⟩ <;>
        rcases charListLE_cons_iff.mp hba with h2 | ⟨h2, h2'⟩
      · exact absurd h2 (lt_asymm h1)
      · exact absurd (h2 ▸ h1) (lt_irrefl x)
      · exact absurd (h1 ▸ h2) (lt_irrefl y)
      · rw [h1, ih ys h1' h2']

theorem strLE_antisymm {a b : String} (hab : strLE a b) (hba : strLE b a) :
    a = b := by
  cases a; cases b
  exact congrArg String.mk (charListLE_antisymm _ _ hab hba)

/-- The ordering used by `realm_sets.sort_by`: candidate groups compared by
their first element. -/
def groupLE (a b : List String) : Prop := strLE (headKey a) (headKey b)

instance : DecidableRel groupLE := fun a b =>
  inferInstanceAs (Decidable (strLE (headKey a) (headKey b)))

instance : IsTotal (List String) groupLE :=
  ⟨fun a b => charListLE_total (headKey a).data (headKey b).data⟩

instance : IsTrans (List String) groupLE :=
  ⟨fun _ _ _ h h' => charListLE_trans _ _ _ h h'⟩

/-- Embedding of `BattleNetApiClient::process_connected_realms`.

The Rust function clones every realm's `connected_realms` vector, sorts the
vectors with a stable sort (`Vec::sort_by`) keyed on each vector's first
element — `unwrap`ping that first element, which panics whenever the sort
compares an empty vector — and then `dedup`s, removing only *adjacent*
equal vectors.

`List.insertionSort` is a stable sort, so it computes exactly what Rust's
stable `sort_by` computes for the total preorder `groupLE`;
`List.destutter (· ≠ ·)` is exactly `Vec::dedup` (keep an element iff it
differs from the previously kept one).

The comparator is invoked at least once per element whenever two or more
candidate groups exist, so the `unwrap` panics exactly when the list has
length ≥ 2 and contains an empty group; `none` models that panic. -/
def realm_sets (realm_infos : List RealmInfo) : List (List String) :=
  realm_infos.map (fun r => r.connected_realms)

def process_connected_realms (realm_infos : List RealmInfo) :
    Option (List (List String)) :=
  if (realm_sets realm_infos).length ≤ 1 ∨ ∀ s ∈ realm_sets realm_infos, s ≠ [] then
    some (((realm_sets realm_infos).insertionSort groupLE).destutter (· ≠ ·))
  else
    none

/-! ### FreshnessGate and `get_auction_listings` -/

/-- Embedding of `BattleNetApiClient::get_auction_listings`, starting from
the decoded `AuctionDataReply` of the status call.

The Rust code pops the *last* pointer out of `files` (`Vec::pop` removes
the last element) and `unwrap`s it — a panic when `files` is empty,
modelled by the outer `none`. It then applies the freshness gate: if
`lastModified <= cutoff` it returns `None` (inner `none`); otherwise it
fetches the pointed-to url through the request executor (the
`fetch_listings` oracle — the executor never fails, so the oracle is
total) and returns the pair of the pointer's `lastModified` and the
decoded reply's `auctions`. -/
def get_auction_listings (fetch_listings : String → AuctionListingsReply)
    (auction_data_reply : AuctionDataReply) (cutoff : Nat) :
    Option (Option (Nat × List AuctionListing)) :=
  match auction_data_reply.files.getLast? with
  | none => none
  | some auction_data_pointer =>
    if auction_data_pointer.lastModified ≤ cutoff then
      some none
    else
      some (some (auction_data_pointer.lastModified,
        (fetch_listings auction_data_pointer.url).auctions))

/-- Embedding of `BattleNetApiClient::get_realms`, starting from the decoded
`BTreeMap<String, Vec<RealmInfo>>` of the realm status call. The Rust code
does `realm_data.remove("realms").expect("Malformed realm response.")`:
when the decoded map has no `"realms"` key the call panics, modelled by
`none`. -/
def get_realms (realm_data : List (String × List RealmInfo)) :
    Option (List RealmInfo) :=
  realm_data.lookup "realms"

/-! ### Clusterer lemmas -/

theorem mem_destutter'_ne {α : Type} [DecidableEq α] :
    ∀ (l : List α) (a x : α), x ∈ l →
      x ∈ List.destutter' (· ≠ ·) a l ∨ x = a := by
  intro l
  induction l with
  | nil => intro a x hx; cases hx
  | cons b t ih =>
    intro a x hx
    rw [List.destutter'_cons]
    by_cases hab : a ≠ b
    · rw [if_pos hab]
      rcases List.mem_cons.mp hx with rfl | hx'
      · exact Or.inl (List.mem_cons_of_mem _ (List.mem_destutter' _ _ _))
      · rcases ih b x hx' with h | rfl
        · exact Or.inl (List.mem_cons_of_mem _ h)
        · exact Or.inl (List.mem_cons_of_mem _ (List.mem_destutter' _ _ _))
    · rw [if_neg hab]
      push_neg at hab
      rcases List.mem_cons.mp hx with rfl | hx'
      · exact Or.inr hab.symm
      · exact ih a x hx'

theorem mem_destutter_ne {α : Type} [DecidableEq α] (l : List α) (x : α)
    (hx : x ∈ l) : x ∈ l.destutter (· ≠ ·) := by
  cases l with
  | nil => cases hx
  | cons a t =>
    rw [List.destutter_cons']
    rcases List.mem_cons.mp hx with rfl | hx'
    · exact List.mem_destutter' _ _ _
    · rcases mem_destutter'_ne t a x hx' with h | rfl
      · exact h
      · exact List.mem_destutter' _ _ _

theorem count_groups_eq_one (l : List (List String)) (a : List String)
    (hnd : l.Pairwise (· ≠ ·)) (ha : a ∈ l) : l.count a = 1 := by
  induction l with
  | nil => cases ha
  | cons b t ih =>
    rw [List.pairwise_cons] at hnd
    rcases List.mem_cons.mp ha with rfl | ha'
    · rw [List.count_cons_self]
      have hz : t.count a = 0 := List.count_eq_zero.mpr (fun h => hnd.1 a h rfl)
      omega
    · rw [List.count_cons_of_ne (Ne.symm (hnd.1 a ha')), ih hnd.2 ha']

/-- Core argument for the corrected C3: in a list sorted by head key, in
which no two adjacent entries are equal and equal head keys force equal
entries, all entries are pairwise distinct. -/
theorem pairwise_ne_of_sorted_chain :
    ∀ l : List (List String), l.Pairwise groupLE → l.Chain' (· ≠ ·) →
      (∀ a ∈ l, ∀ b ∈ l, headKey a = headKey b → a = b) →
      l.Pairwise (· ≠ ·) := by
  intro l
  induction l with
  | nil => intro _ _ _; exact List.Pairwise.nil
  | cons a t ih =>
    intro hp hc hk
    rw [List.pairwise_cons] at hp ⊢
    obtain ⟨ha, hp'⟩ := hp
    refine ⟨?_, ih hp' hc.tail (fun x hx y hy =>
      hk x (List.mem_cons_of_mem _ hx) y (List.mem_cons_of_mem _ hy))⟩
    intro x hx heq
    cases t with
    | nil => cases hx
    | cons b t' =>
      have hab : a ≠ b := (List.chain'_cons.mp hc).1
      rcases List.mem_cons.mp hx with rfl | hx'
      · exact hab heq
      · have h1 : groupLE a b := ha b (List.mem_cons_self _ _)
        have h2 : groupLE b a := heq ▸ (List.pairwise_cons.mp hp').1 x hx'
        have hkeyeq : headKey a = headKey b := strLE_antisymm h1 h2
        exact hab (hk a (List.mem_cons_self _ _) b
          (List.mem_cons_of_mem _ (List.mem_cons_self _ _)) hkeyeq)

/-! ### Claim theorems: clusterer and auction listings -/

/-- C1: for every realm slug (abstracted into the decoded status reply) and
every cutoff, `get_auction_listings` returns the skip value (`none` to the
caller, `some none` here under the panic-free wrapper) if and only if the
lastModified stamp of the fetched auction-data pointer — the one the code
pops, i.e. the last entry of `files` — is at most the cutoff; the boundary
case lastModified = cutoff skips. -/
theorem getAuctionListings_none_iff
    (fetch_listings : String → AuctionListingsReply)
    (auction_data_reply : AuctionDataReply) (cutoff : Nat)
    (ptr : AuctionDataPointer)
    (h : auction_data_reply.files.getLast? = some ptr) :
    get_auction_listings fetch_listings auction_data_reply cutoff = some none ↔
      ptr.lastModified ≤ cutoff := by
  unfold get_auction_listings
  rw [h]
  by_cases hle : ptr.lastModified ≤ cutoff <;> simp [hle]

/-- Witness for C1 at the spec's boundary scenario: cutoff 100 and
lastModified 100 produce the skip result. -/
theorem getAuctionListings_none_iff_witness :
    get_auction_listings (fun _ => ⟨[], []⟩) ⟨[⟨"u", 100⟩]⟩ 100 = some none :=
  (getAuctionListings_none_iff (fun _ => ⟨[], []⟩) ⟨[⟨"u", 100⟩]⟩ 100
    ⟨"u", 100⟩ rfl).mpr (by decide)

/-- C5: when the popped pointer's lastModified exceeds the cutoff,
`get_auction_listings` fetches the pointed-to url and returns the pair of
that lastModified and the decoded auctions of the listings payload. -/
theorem getAuctionListings_fresh_fetch
    (fetch_listings : String → AuctionListingsReply)
    (auction_data_reply : AuctionDataReply) (cutoff : Nat)
    (ptr : AuctionDataPointer)
    (h : auction_data_reply.files.getLast? = some ptr)
    (hfresh : cutoff < ptr.lastModified) :
    get_auction_listings fetch_listings auction_data_reply cutoff =
      some (some (ptr.lastModified, (fetch_listings ptr.url).auctions)) := by
  unfold get_auction_listings
  rw [h]
  simp [not_le.mpr hfresh]

/-- Witness for C5 at the spec's scenario: cutoff 100, lastModified 150,
listings of one auction (item 1, buyout 500, quantity 10). -/
theorem getAuctionListings_fresh_fetch_witness :
    get_auction_listings (fun _ => ⟨[], [⟨1, 500, 10⟩]⟩) ⟨[⟨"u", 150⟩]⟩ 100 =
      some (some (150, [⟨1, 500, 10⟩])) :=
  getAuctionListings_fresh_fetch (fun _ => ⟨[], [⟨1, 500, 10⟩]⟩)
    ⟨[⟨"u", 150⟩]⟩ 100 ⟨"u", 150⟩ rfl (by decide)

/-- C10: `get_auction_listings` bases its whole behaviour on the last
element of the `files` sequence (any earlier pointers are ignored), panics
(modelled `none`) when `files` is empty, and — third conjunct — on a
concrete two-pointer reply it follows the last pointer (stamp 150, url u2),
not the first (stamp 50, which would have been skipped). -/
theorem getAuctionListings_uses_last_pointer
    (fetch_listings : String → AuctionListingsReply) (cutoff : Nat)
    (pre : List AuctionDataPointer) (ptr : AuctionDataPointer) :
    (get_auction_listings fetch_listings ⟨pre ++ [ptr]⟩ cutoff =
        get_auction_listings fetch_listings ⟨[ptr]⟩ cutoff) ∧
      get_auction_listings fetch_listings ⟨[]⟩ cutoff = none ∧
      get_auction_listings
        (fun u => if u = "u2" then ⟨[], [⟨1, 500, 10⟩]⟩ else ⟨[], []⟩)
        ⟨[⟨"u1", 50⟩, ⟨"u2", 150⟩]⟩ 100 = some (some (150, [⟨1, 500, 10⟩])) := by
  refine ⟨?_, rfl, by decide⟩
  unfold get_auction_listings
  rw [show (AuctionDataReply.mk (pre ++ [ptr])).files.getLast? = some ptr from
    List.getLast?_concat pre]
  rfl

/-- C4: the clusterer compares candidate groups positionally after the
stable sort by first element and the adjacent dedup: realms A, B both
reporting [a, b] collapse to the single group [a, b], while A reporting
[a, b] and B reporting [b, a] stay two distinct groups. -/
theorem clusterer_positional_scenarios :
    process_connected_realms
        [⟨"A", "a", ["a", "b"]⟩, ⟨"B", "b", ["a", "b"]⟩] = some [["a", "b"]] ∧
      process_connected_realms
        [⟨"A", "a", ["a", "b"]⟩, ⟨"B", "b", ["b", "a"]⟩] =
        some [["a", "b"], ["b", "a"]] := by
  exact ⟨by decide, by decide⟩

/-- C9: the clusterer completes (no panic, result `some`) whenever every
realm's connected_realms is non-empty, and there is an input with an empty
connected_realms on which the sort comparator's unwrap panics (`none`). -/
theorem clusterer_panic_conditions :
    (∀ realm_infos : List RealmInfo,
        (∀ r ∈ realm_infos, r.connected_realms ≠ []) →
        ∃ out, process_connected_realms realm_infos = some out) ∧
      ∃ realm_infos : List RealmInfo,
        (∃ r ∈ realm_infos, r.connected_realms = []) ∧
          process_connected_realms realm_infos = none := by
  constructor
  · intro ris h
    have hguard : (realm_sets ris).length ≤ 1 ∨ ∀ s ∈ realm_sets ris, s ≠ [] := by
      right
      intro s hs
      simp only [realm_sets, List.mem_map] at hs
      obtain ⟨r, hr, rfl⟩ := hs
      exact h r hr
    exact ⟨_, by unfold process_connected_realms; rw [if_pos hguard]⟩
  · exact ⟨[⟨"A", "a", []⟩, ⟨"B", "b", ["b"]⟩],
      ⟨⟨"A", "a", []⟩, by simp, rfl⟩, by decide⟩

/-- Witness for C9's first conjunct: a concrete all-non-empty input on
which the clusterer completes. -/
theorem clusterer_panic_conditions_witness :
    ∃ out, process_connected_realms
      [⟨"A", "a", ["a", "b"]⟩, ⟨"B", "b", ["a", "b"]⟩] = some out :=
  clusterer_panic_conditions.1
    [⟨"A", "a", ["a", "b"]⟩, ⟨"B", "b", ["a", "b"]⟩] (by decide)

/-- C3 counterexample: on the input whose candidate groups are
[a, b], [a, c], [a, b] — all sharing the first element a — the stable sort
leaves the two copies of [a, b] non-adjacent, `dedup` removes nothing, and
the output contains two element-wise identical groups; the first realm's
sequence [a, b] is then equal to two output groups, not exactly one. -/
theorem clusterer_duplicate_groups_cex :
    process_connected_realms
        [⟨"A", "a", ["a", "b"]⟩, ⟨"C", "c", ["a", "c"]⟩, ⟨"D", "d", ["a", "b"]⟩] =
      some [["a", "b"], ["a", "c"], ["a", "b"]] ∧
      ¬ ([["a", "b"], ["a", "c"], ["a", "b"]] : List (List String)).Pairwise (· ≠ ·) ∧
      ([["a", "b"], ["a", "c"], ["a", "b"]] : List (List String)).count ["a", "b"] = 2 := by
  refine ⟨by decide, ?_, by decide⟩
  intro hp
  exact (List.pairwise_cons.mp hp).1 ["a", "b"] (by decide) rfl

/-- C3 corrected: under the preconditions the code's own comment assumes —
no empty group, and candidate groups that share a first element are
element-wise identical (which holds when connected groups are disjoint and
every member reports the shared sequence in the same order) — the
clusterer's output has no two element-wise identical groups and every
input realm's connected_realms sequence occurs in it exactly once. -/
theorem clusterer_dedup_amended
    (realm_infos : List RealmInfo)
    (hne : ∀ r ∈ realm_infos, r.connected_realms ≠ [])
    (hkey : ∀ r ∈ realm_infos, ∀ r' ∈ realm_infos,
      headKey r.connected_realms = headKey r'.connected_realms →
      r.connected_realms = r'.connected_realms)
    (out : List (List String))
    (hout : process_connected_realms realm_infos = some out) :
    out.Pairwise (· ≠ ·) ∧
      ∀ r ∈ realm_infos, out.count r.connected_realms = 1 := by
  have hguard : (realm_sets realm_infos).length ≤ 1 ∨
      ∀ s ∈ realm_sets realm_infos, s ≠ [] := by
    right
    intro s hs
    simp only [realm_sets, List.mem_map] at hs
    obtain ⟨r, hr, rfl⟩ := hs
    exact hne r hr
  unfold process_connected_realms at hout
  rw [if_pos hguard] at hout
  have hout' : out =
      ((realm_sets realm_infos).insertionSort groupLE).destutter (· ≠ ·) :=
    (Option.some.injEq _ _ ▸ hout).symm
  have hmem_sets : ∀ a ∈ out, a ∈ realm_sets realm_infos := by
    intro a ha
    rw [hout'] at ha
    exact (List.perm_insertionSort groupLE _).mem_iff.mp
      ((List.destutter_sublist _ _).mem ha)
  have hsorted : out.Pairwise groupLE := by
    rw [hout']
    exact List.Pairwise.sublist (List.destutter_sublist _ _)
      (List.sorted_insertionSort groupLE (realm_sets realm_infos))
  have hchain : out.Chain' (· ≠ ·) := by
    rw [hout']
    exact List.destutter_is_chain' _ _
  have hkey' : ∀ a ∈ out, ∀ b ∈ out, headKey a = headKey b → a = b := by
    intro a ha b hb hab
    obtain ⟨ra, hra, rfl⟩ := List.mem_map.mp (hmem_sets a ha)
    obtain ⟨rb, hrb, rfl⟩ := List.mem_map.mp (hmem_sets b hb)
    exact hkey ra hra rb hrb hab
  have hnodup : out.Pairwise (· ≠ ·) :=
    pairwise_ne_of_sorted_chain out hsorted hchain hkey'
  refine ⟨hnodup, fun r hr => ?_⟩
  have hin : r.connected_realms ∈ out := by
    rw [hout']
    exact mem_destutter_ne _ _ ((List.perm_insertionSort groupLE _).mem_iff.mpr
      (List.mem_map.mpr ⟨r, hr, rfl⟩))
  exact count_groups_eq_one out r.connected_realms hnodup hin

/-- Witness for the corrected C3: two realms reporting the same group and a
third disjoint one yield two distinct groups, each occurring once. -/
theorem clusterer_dedup_amended_witness :
    ([["a", "b"], ["c"]] : List (List String)).Pairwise (· ≠ ·) ∧
      ∀ r ∈ [(⟨"A", "a", ["a", "b"]⟩ : RealmInfo), ⟨"B", "b", ["a", "b"]⟩,
        ⟨"C", "c", ["c"]⟩],
        ([["a", "b"], ["c"]] : List (List String)).count r.connected_realms = 1 :=
  clusterer_dedup_amended
    [⟨"A", "a", ["a", "b"]⟩, ⟨"B", "b", ["a", "b"]⟩, ⟨"C", "c", ["c"]⟩]
    (by decide) (by decide) [["a", "b"], ["c"]] (by decide)

/-! ### RequestExecutor (`make_blizzard_api_call`) and the owner-field
sanitizer -/

/-- The double-quote character, written by code point to keep the source
free of quote characters inside character literals. -/
def dq : Char := Char.ofNat 34

/-- The literal part of the regex pattern: the nine characters of
the text quote-owner-quote-colon-quote that open an owner field. -/
def ownerKey : List Char := [dq, 'o', 'w', 'n', 'e', 'r', dq, ':', dq]

/-- The replacement text: the owner field with its value collapsed to the
underscore placeholder. -/
def ownerRepl : List Char := ownerKey ++ ['_', dq]

/-- Boolean check that the first list is an initial segment of the second. -/
def isPre : List Char → List Char → Bool
  | [], _ => true
  | _ :: _, [] => false
  | p :: ps, c :: cs => p == c && isPre ps cs

/-- Scan forward to the closing quote of the field value; return the text
after it. Models the regex engine consuming the shortest run matched by
the lazy one-or-more of non-quote characters. -/
def scanVal : List Char → Option (List Char)
  | [] => none
  | c :: cs => if c = dq then some cs else scanVal cs

/-- Match the value-and-closing-quote part of the regex right after the
literal key: at least one non-quote character, then the closing quote.
Returns the remainder of the text after the full match. -/
def matchVal : List Char → Option (List Char)
  | [] => none
  | c :: cs => if c = dq then none else scanVal cs

/-- Try to match the whole owner-field regex at the head of the text;
return the remainder after the match. -/
def ownerMatch (l : List Char) : Option (List Char) :=
  if isPre ownerKey l then matchVal (l.drop 9) else none

/-- Fuel-indexed worker for the replace_all: at each position, replace a
match and continue after it, else emit one character and move on. The fuel
(always instantiated with the text length, which bounds the number of
steps) only makes the recursion structural. -/
def sanitizeAux : Nat → List Char → List Char
  | 0, l => l
  | _ + 1, [] => []
  | f + 1, c :: cs =>
    match ownerMatch (c :: cs) with
    | some rest => ownerRepl ++ sanitizeAux f rest
    | none => c :: sanitizeAux f cs

/-- Embedding of the body sanitization step of `make_blizzard_api_call`:
`re.replace_all` with the owner-field regex, replacing every non-overlapping
leftmost match by the fixed placeholder text. -/
def sanitize (l : List Char) : List Char := sanitizeAux l.length l

/-- Outcome of one attempt of the retry loop, as observed from the
external transport: a send error, a non-success status, a body read
failure, or a successfully read body text. -/
inductive AttemptResult where
  | transportErr : AttemptResult
  | badStatus : AttemptResult
  | readErr : AttemptResult
  | body : List Char → AttemptResult
  deriving DecidableEq

/-- The retry loop of `make_blizzard_api_call`, carrying the read buffer.
In the Rust source the buffer `s` is declared *outside* the `loop` and
`read_to_string(&mut s)` *appends* to it; the shadowing
`let s = re.replace_all(&s, …)` leaves the outer buffer intact. So every
successfully read body is appended to whatever earlier bodies the loop
already read, and each decode attempt sanitizes and decodes the whole
accumulated buffer. Transport errors and non-success statuses `continue`
before any read and leave the buffer unchanged; for a failed
`read_to_string` the buffer contents are unspecified by the Rust API, so
the model leaves it unchanged there too. `none` models a run still
retrying when the modelled finite stream ends. -/
def api_call_loop {T : Type} (decode : List Char → Option T) :
    List Char → List AttemptResult → Option T
  | _, [] => none
  | buf, AttemptResult.body s :: rest =>
    match decode (sanitize (buf ++ s)) with
    | some t => some t
    | none => api_call_loop decode (buf ++ s) rest
  | buf, AttemptResult.transportErr :: rest => api_call_loop decode buf rest
  | buf, AttemptResult.badStatus :: rest => api_call_loop decode buf rest
  | buf, AttemptResult.readErr :: rest => api_call_loop decode buf rest

/-- Embedding of `BattleNetApiClient::make_blizzard_api_call`, generic over
the expected shape `T` with the JSON decoder as a black-box oracle: the
retry loop entered with the fresh (empty) buffer `String::new()`. The Rust
loop never returns an error: its only outcomes are a decoded value or
looping forever. -/
def make_blizzard_api_call {T : Type} (decode : List Char → Option T)
    (attempts : List AttemptResult) : Option T :=
  api_call_loop decode [] attempts

/-- Embedding of `BattleNetApiClient::get_item_info`: a direct call of the
request executor with the `ItemInfo` decoder. -/
def get_item_info (decode : List Char → Option ItemInfo)
    (attempts : List AttemptResult) : Option ItemInfo :=
  make_blizzard_api_call decode attempts

/-! #### Sanitizer lemmas -/

theorem scanVal_length : ∀ l r : List Char, scanVal l = some r →
    r.length < l.length := by
  intro l
  induction l with
  | nil => intro r h; cases h
  | cons c cs ih =>
    intro r h
    rw [scanVal] at h
    by_cases hc : c = dq
    · rw [if_pos hc] at h
      cases h
      simp
    · rw [if_neg hc] at h
      exact Nat.lt_trans (ih r h) (by simp)

theorem matchVal_length (l r : List Char) (h : matchVal l = some r) :
    r.length < l.length := by
  cases l with
  | nil => cases h
  | cons c cs =>
    rw [matchVal] at h
    by_cases hc : c = dq
    · rw [if_pos hc] at h; cases h
    · rw [if_neg hc] at h
      exact Nat.lt_trans (scanVal_length cs r h) (by simp)

theorem ownerMatch_length (l r : List Char) (h : ownerMatch l = some r) :
    r.length < l.length := by
  rw [ownerMatch] at h
  by_cases hp : isPre ownerKey l = true
  · rw [if_pos hp] at h
    exact Nat.lt_of_lt_of_le (matchVal_length _ _ h)
      (Nat.le_trans (List.length_drop 9 l ▸ Nat.sub_le _ _) (Nat.le_refl _))
  · rw [if_neg hp] at h; cases h

theorem sanitizeAux_fuel : ∀ n l, List.length l ≤ n →
    ∀ f g, List.length l ≤ f → List.length l ≤ g →
    sanitizeAux f l = sanitizeAux g l := by
  intro n
  induction n with
  | zero =>
    intro l hl f g _ _
    rw [List.length_eq_zero.mp (Nat.le_zero.mp hl)]
    cases f <;> cases g <;> rfl
  | succ n ih =>
    intro l hl f g hf hg
    cases l with
    | nil => cases f <;> cases g <;> rfl
    | cons c cs =>
      cases f with
      | zero => exact absurd hf (by simp)
      | succ f' =>
        cases g with
        | zero => exact absurd hg (by simp)
        | succ g' =>
          simp only [List.length_cons] at hl hf hg
          simp only [sanitizeAux]
          cases hm : ownerMatch (c :: cs) with
          | some rest =>
            have hrest : rest.length < cs.length + 1 := by
              simpa using ownerMatch_length _ _ hm
            show ownerRepl ++ sanitizeAux f' rest = ownerRepl ++ sanitizeAux g' rest
            rw [ih rest (by omega) f' g' (by omega) (by omega)]
          | none =>
            show c :: sanitizeAux f' cs = c :: sanitizeAux g' cs
            rw [ih cs (by omega) f' g' (by omega) (by omega)]

theorem sanitizeAux_eq_sanitize (f : Nat) (l : List Char)
    (hf : List.length l ≤ f) : sanitizeAux f l = sanitize l :=
  sanitizeAux_fuel l.length l (Nat.le_refl _) f l.length hf (Nat.le_refl _)

theorem isPre_append (p t : List Char) : isPre p (p ++ t) = true := by
  induction p with
  | nil => rfl
  | cons c cs ih => simp [isPre, ih]

theorem scanVal_no_quote (v post : List Char) (hv : dq ∉ v) :
    scanVal (v ++ dq :: post) = some post := by
  induction v with
  | nil => simp [scanVal]
  | cons c cs ih =>
    have hc : c ≠ dq := fun h => hv (h ▸ List.mem_cons_self _ _)
    rw [List.cons_append, scanVal, if_neg hc]
    exact ih (fun h => hv (List.mem_cons_of_mem _ h))

theorem ownerMatch_pattern (v post : List Char) (hv : v ≠ []) (hvq : dq ∉ v) :
    ownerMatch (ownerKey ++ (v ++ dq :: post)) = some post := by
  rw [ownerMatch, if_pos (isPre_append _ _)]
  rw [show (9 : Nat) = ownerKey.length from rfl, List.drop_left]
  cases v with
  | nil => exact absurd rfl hv
  | cons c cs =>
    have hc : c ≠ dq := fun h => hvq (h ▸ List.mem_cons_self _ _)
    rw [List.cons_append, matchVal, if_neg hc]
    exact scanVal_no_quote cs post (fun h => hvq (List.mem_cons_of_mem _ h))

theorem ownerMatch_head_ne (c : Char) (cs : List Char) (hc : c ≠ dq) :
    ownerMatch (c :: cs) = none := by
  rw [ownerMatch, if_neg]
  simp only [ownerKey, isPre, Bool.and_eq_true, beq_iff_eq]
  exact fun h => hc h.1.symm

/-- The eight characters of the literal key after its leading quote. -/
def ownerKeyTail : List Char := ['o', 'w', 'n', 'e', 'r', dq, ':', dq]

theorem sanitizeAux_step_match (f : Nat) (c : Char) (cs rest : List Char)
    (hm : ownerMatch (c :: cs) = some rest) :
    sanitizeAux (f + 1) (c :: cs) = ownerRepl ++ sanitizeAux f rest := by
  simp only [sanitizeAux, hm]

theorem sanitizeAux_step_no (f : Nat) (c : Char) (cs : List Char)
    (hm : ownerMatch (c :: cs) = none) :
    sanitizeAux (f + 1) (c :: cs) = c :: sanitizeAux f cs := by
  simp only [sanitizeAux, hm]

theorem sanitizeAux_no_quote : ∀ (f : Nat) (l : List Char), dq ∉ l →
    sanitizeAux f l = l := by
  intro f
  induction f with
  | zero => intro l _; rfl
  | succ f' ih =>
    intro l hl
    cases l with
    | nil => rfl
    | cons c cs =>
      have hc : c ≠ dq := fun h => hl (h ▸ List.mem_cons_self _ _)
      rw [sanitizeAux_step_no f' c cs (ownerMatch_head_ne c cs hc)]
      rw [ih cs (fun h => hl (List.mem_cons_of_mem _ h))]

theorem sanitize_no_quote (l : List Char) (hl : dq ∉ l) : sanitize l = l :=
  sanitizeAux_no_quote l.length l hl

theorem sanitizeAux_pattern (v post : List Char) (hv : v ≠ []) (hvq : dq ∉ v) :
    ∀ (pre : List Char) (f : Nat), dq ∉ pre →
      (pre ++ (ownerKey ++ (v ++ dq :: post))).length ≤ f →
      sanitizeAux f (pre ++ (ownerKey ++ (v ++ dq :: post))) =
        pre ++ (ownerRepl ++ sanitize post) := by
  intro pre
  induction pre with
  | nil =>
    intro f _ hf
    simp only [List.nil_append] at hf ⊢
    cases f with
    | zero =>
      exfalso
      simp [ownerKey] at hf
    | succ f' =>
      have hform : ownerKey ++ (v ++ dq :: post) =
          dq :: (ownerKeyTail ++ (v ++ dq :: post)) := rfl
      have hm : ownerMatch (dq :: (ownerKeyTail ++ (v ++ dq :: post))) =
          some post := hform ▸ ownerMatch_pattern v post hv hvq
      rw [hform, sanitizeAux_step_match f' _ _ post hm]
      rw [sanitizeAux_eq_sanitize f' post ?hlen]
      case hlen =>
        rw [hform] at hf
        simp only [List.length_cons, List.length_append, List.length_nil,
          ownerKeyTail] at hf
        omega
  | cons c pre' ih =>
    intro f hdq hf
    have hc : c ≠ dq := fun h => hdq (h ▸ List.mem_cons_self _ _)
    simp only [List.cons_append] at hf ⊢
    cases f with
    | zero =>
      exfalso
      simp at hf
    | succ f' =>
      rw [sanitizeAux_step_no f' c _ (ownerMatch_head_ne c _ hc)]
      rw [ih f' (fun h => hdq (List.mem_cons_of_mem _ h))
        (by simp only [List.length_cons] at hf; omega)]

theorem isPre_eq (p : List Char) : ∀ l : List Char, isPre p l = true →
    ∃ t, l = p ++ t := by
  induction p with
  | nil => exact fun l _ => ⟨l, rfl⟩
  | cons a ps ih =>
    intro l h
    cases l with
    | nil => cases h
    | cons c cs =>
      simp only [isPre, Bool.and_eq_true, beq_iff_eq] at h
      obtain ⟨heq, h2⟩ := h
      subst heq
      obtain ⟨t, ht⟩ := ih cs h2
      exact ⟨t, by simp [ht]⟩

theorem scanVal_decomp (rest : List Char) : ∀ cs : List Char,
    scanVal cs = some rest → ∃ w, dq ∉ w ∧ cs = w ++ dq :: rest := by
  intro cs
  induction cs with
  | nil => intro h; cases h
  | cons c cs' ih =>
    intro h
    rw [scanVal] at h
    by_cases hc : c = dq
    · rw [if_pos hc] at h
      injection h with h
      exact ⟨[], by simp, by simp [hc, h]⟩
    · rw [if_neg hc] at h
      obtain ⟨w, hw, hcs⟩ := ih h
      refine ⟨c :: w, ?_, by simp [hcs]⟩
      intro hmem
      rcases List.mem_cons.mp hmem with h' | h'
      · exact hc h'.symm
      · exact hw h'

theorem matchVal_decomp (t rest : List Char) (h : matchVal t = some rest) :
    ∃ v, v ≠ [] ∧ dq ∉ v ∧ t = v ++ dq :: rest := by
  cases t with
  | nil => cases h
  | cons c cs =>
    rw [matchVal] at h
    by_cases hc : c = dq
    · rw [if_pos hc] at h; cases h
    · rw [if_neg hc] at h
      obtain ⟨w, hw, hcs⟩ := scanVal_decomp rest cs h
      refine ⟨c :: w, List.cons_ne_nil c w, ?_, by simp [hcs]⟩
      intro hmem
      rcases List.mem_cons.mp hmem with h' | h'
      · exact hc h'.symm
      · exact hw h'

theorem ownerMatch_some_decomp (l rest : List Char)
    (h : ownerMatch l = some rest) :
    ∃ v, v ≠ [] ∧ dq ∉ v ∧ l = ownerKey ++ (v ++ dq :: rest) := by
  rw [ownerMatch] at h
  by_cases hp : isPre ownerKey l = true
  · rw [if_pos hp] at h
    obtain ⟨t, rfl⟩ := isPre_eq ownerKey l hp
    rw [show (9 : Nat) = ownerKey.length from rfl, List.drop_left] at h
    obtain ⟨v, hv, hvq, rfl⟩ := matchVal_decomp t rest h
    exact ⟨v, hv, hvq, rfl⟩
  · rw [if_neg hp] at h; cases h

theorem sanitize_cons_no (c : Char) (cs : List Char)
    (h : ownerMatch (c :: cs) = none) :
    sanitize (c :: cs) = c :: sanitize cs := by
  show sanitizeAux (cs.length + 1) (c :: cs) = c :: sanitize cs
  rw [sanitizeAux_step_no cs.length c cs h]
  rfl

theorem sanitize_match_step (c : Char) (cs rest : List Char)
    (h : ownerMatch (c :: cs) = some rest) :
    sanitize (c :: cs) = ownerRepl ++ sanitize rest := by
  show sanitizeAux (cs.length + 1) (c :: cs) = ownerRepl ++ sanitize rest
  rw [sanitizeAux_step_match cs.length c cs rest h]
  rw [sanitizeAux_eq_sanitize cs.length rest ?hb]
  case hb =>
    have hlt := ownerMatch_length _ _ h
    simp only [List.length_cons] at hlt
    omega

theorem not_owner_start (c : Char) (cs : List Char)
    (h : ownerMatch (c :: cs) = none) :
    ∀ v rest : List Char, v ≠ [] → dq ∉ v →
      c :: cs ≠ ownerKey ++ (v ++ dq :: rest) := by
  intro v rest hv hvq heq
  rw [heq, ownerMatch_pattern v rest hv hvq] at h
  cases h

/-- Specification relation for the sanitization step, following the spec's
words: walking the body left to right, a position at which no owner field
starts (no occurrence of the quoted owner key, a non-empty quote-free
value and its closing quote begins there) has its character copied to the
output unchanged, and a position at which an owner field does start has
that whole occurrence replaced by the fixed underscore placeholder, with
rewriting resuming after it. Defined independently of `sanitize`, to be
compared with it. -/
inductive OwnerReplSpec : List Char → List Char → Prop where
  | nil : OwnerReplSpec [] []
  | keep (c : Char) (l out : List Char) :
      (∀ v rest : List Char, v ≠ [] → dq ∉ v →
        c :: l ≠ ownerKey ++ (v ++ dq :: rest)) →
      OwnerReplSpec l out → OwnerReplSpec (c :: l) (c :: out)
  | repl (v rest out : List Char) :
      v ≠ [] → dq ∉ v → OwnerReplSpec rest out →
      OwnerReplSpec (ownerKey ++ (v ++ dq :: rest)) (ownerRepl ++ out)

theorem spec_cases (l o : List Char) (h : OwnerReplSpec l o) :
    (l = [] ∧ o = []) ∨
      (∃ c l' o', l = c :: l' ∧ o = c :: o' ∧
        (∀ v rest : List Char, v ≠ [] → dq ∉ v →
          c :: l' ≠ ownerKey ++ (v ++ dq :: rest)) ∧ OwnerReplSpec l' o') ∨
      ∃ v rest o', v ≠ [] ∧ dq ∉ v ∧ l = ownerKey ++ (v ++ dq :: rest) ∧
        o = ownerRepl ++ o' ∧ OwnerReplSpec rest o' := by
  cases h with
  | nil => exact Or.inl ⟨rfl, rfl⟩
  | keep c l' o' hno h' => exact Or.inr (Or.inl ⟨c, l', o', rfl, rfl, hno, h'⟩)
  | repl v rest o' hv hvq h' =>
    exact Or.inr (Or.inr ⟨v, rest, o', hv, hvq, rfl, rfl, h'⟩)

theorem quote_split_unique :
    ∀ v v' rest rest' : List Char, dq ∉ v → dq ∉ v' →
      v ++ dq :: rest = v' ++ dq :: rest' → v = v' ∧ rest = rest' := by
  intro v
  induction v with
  | nil =>
    intro v' rest rest' _ hv' h
    cases v' with
    | nil =>
      simp only [List.nil_append] at h
      injection h with _ h2
      exact ⟨rfl, h2⟩
    | cons u us =>
      simp only [List.nil_append, List.cons_append] at h
      injection h with h1 _
      exact absurd (by rw [h1]; exact List.mem_cons_self u us) hv'
  | cons a as ih =>
    intro v' rest rest' hv hv' h
    cases v' with
    | nil =>
      simp only [List.nil_append, List.cons_append] at h
      injection h with h1 _
      exact absurd (by rw [h1]; exact List.mem_cons_self dq as) hv
    | cons b bs =>
      simp only [List.cons_append] at h
      injection h with h1 h2
      obtain ⟨hveq, hresteq⟩ := ih bs rest rest'
        (fun hm => hv (List.mem_cons_of_mem _ hm))
        (fun hm => hv' (List.mem_cons_of_mem _ hm)) h2
      exact ⟨by rw [h1, hveq], hresteq⟩

theorem ownerReplSpec_sanitize (l : List Char) :
    OwnerReplSpec l (sanitize l) := by
  have H : ∀ n, ∀ l : List Char, l.length ≤ n →
      OwnerReplSpec l (sanitize l) := by
    intro n
    induction n with
    | zero =>
      intro l hl
      rw [List.length_eq_zero.mp (Nat.le_zero.mp hl)]
      exact OwnerReplSpec.nil
    | succ n ih =>
      intro l hl
      cases l with
      | nil => exact OwnerReplSpec.nil
      | cons c cs =>
        simp only [List.length_cons] at hl
        cases hm : ownerMatch (c :: cs) with
        | none =>
          rw [sanitize_cons_no c cs hm]
          exact OwnerReplSpec.keep c cs (sanitize cs)
            (not_owner_start c cs hm) (ih cs (by omega))
        | some rest =>
          obtain ⟨v, hv, hvq, heq⟩ := ownerMatch_some_decomp _ rest hm
          rw [sanitize_match_step c cs rest hm, heq]
          have hrest : rest.length ≤ n := by
            have hlt := ownerMatch_length _ _ hm
            simp only [List.length_cons] at hlt
            omega
          exact OwnerReplSpec.repl v rest (sanitize rest) hv hvq (ih rest hrest)
  exact H l.length l (Nat.le_refl _)

theorem ownerReplSpec_unique {l o₁ : List Char} (h1 : OwnerReplSpec l o₁) :
    ∀ o₂ : List Char, OwnerReplSpec l o₂ → o₁ = o₂ := by
  induction h1 with
  | nil =>
    intro o₂ h2
    rcases spec_cases _ _ h2 with ⟨_, ho⟩ | ⟨c, l', o', he, _, _, _⟩ |
      ⟨v, rest, o', _, _, he, _, _⟩
    · exact ho.symm
    · exact absurd he.symm (List.cons_ne_nil c l')
    · simp [ownerKey] at he
  | keep c l' o' hno h' ih =>
    intro o₂ h2
    rcases spec_cases _ _ h2 with ⟨he, _⟩ | ⟨c2, l2, o2', he, ho, _, h2'⟩ |
      ⟨v, rest, o2', hv, hvq, he, _, _⟩
    · exact absurd he (List.cons_ne_nil c l')
    · injection he with hc hl
      subst hc
      subst hl
      rw [ho, ih o2' h2']
    · exact absurd he (hno v rest hv hvq)
  | repl v rest o' hv hvq h' ih =>
    intro o₂ h2
    rcases spec_cases _ _ h2 with ⟨he, _⟩ | ⟨c2, l2, o2', he, ho, hno2, h2'⟩ |
      ⟨v2, rest2, o2', hv2, hvq2, he, ho, h2'⟩
    · simp [ownerKey] at he
    · exact absurd he.symm (hno2 v rest hv hvq)
    · obtain ⟨hveq, hresteq⟩ := quote_split_unique v v2 rest rest2 hvq hvq2
        (List.append_cancel_left he)
      subst hveq
      subst hresteq
      rw [ho, ih o2' h2']

/-! ### Claim theorems: sanitizer, executor, public failure surface -/

/-- C6: full characterization of the sanitization step on *every* response
body, with no side condition. `OwnerReplSpec` transcribes the claim — a
character at which no owner field starts is copied to the output
unchanged, and each occurrence of the owner field (the quoted key, a
non-empty quote-free value, the closing quote) is collapsed to the fixed
underscore placeholder — and the theorem states that `sanitize` satisfies
this relation on every body (first conjunct) and that the relation admits
only one output per body (second conjunct), so `sanitize` is exactly the
replace-each-occurrence-leave-the-rest function: a sanitizer touching any
other field's value would violate a `keep` step. The executor applies
`sanitize` to every response body of every endpoint by construction of
`api_call_loop`. -/
theorem sanitize_owner_field :
    (∀ l : List Char, OwnerReplSpec l (sanitize l)) ∧
      ∀ l o₁ o₂ : List Char, OwnerReplSpec l o₁ → OwnerReplSpec l o₂ →
        o₁ = o₂ :=
  ⟨ownerReplSpec_sanitize, fun _ _ _ h1 h2 => ownerReplSpec_unique h1 _ h2⟩

/-- Witness for C6: on a concrete body that carries quote characters
before its owner field (a quoted fragment, a comma, then the field with
value bob), applying the theorem's two conjuncts evaluates the sanitizer:
the prefix and the comma survive verbatim and the field collapses to the
placeholder. -/
theorem sanitize_owner_field_witness :
    sanitize ([dq, 'x', dq, ','] ++ (ownerKey ++ (['b', 'o', 'b'] ++ dq :: []))) =
      [dq, 'x', dq, ','] ++ (ownerRepl ++ []) :=
  sanitize_owner_field.2 _ _ _
    (sanitize_owner_field.1
      ([dq, 'x', dq, ','] ++ (ownerKey ++ (['b', 'o', 'b'] ++ dq :: []))))
    (OwnerReplSpec.keep dq _ _ (not_owner_start _ _ (by decide))
      (OwnerReplSpec.keep 'x' _ _ (not_owner_start _ _ (by decide))
        (OwnerReplSpec.keep dq _ _ (not_owner_start _ _ (by decide))
          (OwnerReplSpec.keep ',' _ _ (not_owner_start _ _ (by decide))
            (OwnerReplSpec.repl ['b', 'o', 'b'] [] [] (by decide) (by decide)
              OwnerReplSpec.nil)))))

/-- C7 (code bug): the claim states the spec's clear intent — the executor
retries every failure precisely so that a later good payload can succeed —
but the code drops it. The read buffer `s` is declared outside the retry
loop and `read_to_string` appends, so after an attempt whose body was read
but failed to decode, every later attempt decodes the concatenation of all
bodies read so far, and a success-status response whose own sanitized body
decodes does not make the executor return. At the failing input below the
decoder accepts exactly the body of the second attempt: alone, that
attempt returns the decoded value (second conjunct), but preceded by a
read-but-undecodable body the executor decodes the poisoned concatenation,
fails, and is still retrying at the end of the stream (first conjunct),
while prefixing failures that read nothing change nothing (third
conjunct). -/
theorem executor_buffer_poisoning :
    make_blizzard_api_call (fun l => if l = ['x'] then some 7 else none)
        [AttemptResult.body ['o'], AttemptResult.body ['x']] = none ∧
      make_blizzard_api_call (fun l => if l = ['x'] then some 7 else none)
        [AttemptResult.body ['x']] = some 7 ∧
      make_blizzard_api_call (fun l => if l = ['x'] then some 7 else none)
        [AttemptResult.transportErr, AttemptResult.badStatus,
          AttemptResult.readErr, AttemptResult.body ['x']] = some 7 :=
  ⟨by decide, by decide, by decide⟩

/-- C2 counterexample: two caller-visible aborts on payloads the decoder
accepts. The realm-status decoder accepts the empty JSON object (an empty
map), on which `get_realms` panics in
`.remove("realms").expect("Malformed realm response.")`; the auction
status decoder accepts a reply with an empty `files` vector, on which
`get_auction_listings` panics in `.pop().unwrap()`. Both panics are
modelled by the result `none`, an outcome that is neither a decoded value
nor indefinite blocking. -/
theorem publicOps_panic_cex :
    get_realms [] = none ∧
      get_auction_listings (fun _ => ⟨[], []⟩) ⟨[]⟩ 0 = none :=
  ⟨rfl, rfl⟩

/-- C2 corrected: the failure-free contract holds for payloads carrying
the structure the code then unpacks — a realm payload whose map binds the
realms key, an auction status whose files list is non-empty — and
`get_item_info` passes the executor's decoded value through unchanged with
no further failure point. -/
theorem publicOps_no_failure_amended :
    (∀ (realm_data : List (String × List RealmInfo)) (v : List RealmInfo),
        realm_data.lookup "realms" = some v → get_realms realm_data = some v) ∧
      (∀ (fetch_listings : String → AuctionListingsReply)
          (reply : AuctionDataReply) (cutoff : Nat), reply.files ≠ [] →
          get_auction_listings fetch_listings reply cutoff ≠ none) ∧
      ∀ (decode : List Char → Option ItemInfo)
        (attempts : List AttemptResult) (info : ItemInfo),
        make_blizzard_api_call decode attempts = some info →
        get_item_info decode attempts = some info := by
  refine ⟨fun _ _ h => h, fun fetch_listings reply cutoff hne => ?_,
    fun _ _ _ h => h⟩
  unfold get_auction_listings
  cases hlast : reply.files.getLast? with
  | none => exact absurd (List.getLast?_eq_none_iff.mp hlast) hne
  | some ptr =>
    by_cases hle : ptr.lastModified ≤ cutoff <;> simp [hle]

/-- Witness for the corrected C2, one concrete instance per operation. -/
theorem publicOps_no_failure_amended_witness :
    get_realms [("realms", [])] = some [] ∧
      get_auction_listings (fun _ => ⟨[], []⟩) ⟨[⟨"u", 5⟩]⟩ 9 ≠ none ∧
      get_item_info (fun _ => some ⟨1, "n", "i"⟩) [AttemptResult.body []] =
        some ⟨1, "n", "i"⟩ :=
  ⟨publicOps_no_failure_amended.1 [("realms", [])] [] rfl,
    publicOps_no_failure_amended.2.1 (fun _ => ⟨[], []⟩) ⟨[⟨"u", 5⟩]⟩ 9
      (by decide),
    publicOps_no_failure_amended.2.2 (fun _ => some ⟨1, "n", "i"⟩)
      [AttemptResult.body []] ⟨1, "n", "i"⟩ rfl⟩

/-! ### RateLimiter (`ThreadThrottler`) -/

/-- Modelled from the spec: the `ThreadThrottler` used by
`make_blizzard_api_call` lives in the repository's `thread_throttler`
module, whose source is not available here; only its construction
(`ThreadThrottler::new(100, Duration::new(1, 0))`) and its
`pass_through_or_block` call site are. `windowCount W t pre` counts, among
the earlier acquisition completion times `pre`, those still inside the
trailing window of length `W` ending at time `t`. -/
def windowCount (W t : Nat) (pre : List Nat) : Nat :=
  pre.countP (fun u => decide (t < u + W))

/-- Modelled from the spec: an admissible continuation of an acquisition
trace. Per §4.1, acquire blocks until fewer than `N` acquisitions have
completed within the trailing window, then records the acquisition and
returns; so an acquisition may complete at time `t` only when the times in
`pre` (all earlier, in completion order) hold fewer than `N` entries
within the trailing window of length `W` before `t`. -/
def validFrom (N W : Nat) (pre : List Nat) : List Nat → Bool
  | [] => true
  | t :: rest =>
    pre.all (fun u => decide (u ≤ t)) &&
      decide (windowCount W t pre < N) &&
      validFrom N W (pre ++ [t]) rest

/-- Modelled from the spec: a full acquisition trace — the globally ordered
sequence of completion timestamps produced by any number of concurrent
callers sharing the one throttler instance — in which every acquisition
respected the trailing-window bound when it completed. -/
def ValidTrace (N W : Nat) (trace : List Nat) : Bool := validFrom N W [] trace

/-- The permit capacity configured in `BattleNetApiClient::new`. -/
def throttler_capacity : Nat := 100

/-- The window length (in seconds) configured in `BattleNetApiClient::new`. -/
def throttler_window_secs : Nat := 1

/-- Membership of a timestamp in the length-`W` interval starting at `x`. -/
def inWindow (x W u : Nat) : Bool := decide (x ≤ u) && decide (u < x + W)

theorem validFrom_decomp (N W : Nat) :
    ∀ (a : List Nat) (t : Nat) (b pre : List Nat),
      validFrom N W pre (a ++ t :: b) = true →
      windowCount W t (pre ++ a) < N := by
  intro a
  induction a with
  | nil =>
    intro t b pre h
    simp only [List.nil_append, validFrom, Bool.and_eq_true,
      decide_eq_true_eq] at h
    simpa using h.1.2
  | cons y a' ih =>
    intro t b pre h
    simp only [List.cons_append, validFrom, Bool.and_eq_true] at h
    have hrec := ih t b (pre ++ [y]) h.2
    simpa [List.append_assoc] using hrec

theorem exists_last_countP (p : Nat → Bool) :
    ∀ l : List Nat, 0 < l.countP p →
      ∃ a t b, l = a ++ t :: b ∧ p t = true ∧
        a.countP p + 1 = l.countP p ∧ b.countP p = 0 := by
  intro l
  induction l with
  | nil => intro h; simp [List.countP_nil] at h
  | cons c l' ih =>
    intro h
    by_cases h' : 0 < l'.countP p
    · obtain ⟨a, t, b, rfl, hpt, hcnt, hb⟩ := ih h'
      refine ⟨c :: a, t, b, rfl, hpt, ?_, hb⟩
      rw [List.countP_cons, List.countP_cons]
      omega
    · have hl' : l'.countP p = 0 := by omega
      have hc : p c = true := by
        by_contra hc
        rw [List.countP_cons, hl', if_neg hc] at h
        exact absurd h (by omega)
      exact ⟨[], c, l', rfl, hc, by simp [List.countP_cons, hc, hl'], hl'⟩

/-- C8: for any configured capacity `N` and window `W`, along every
admissible acquisition trace — and every interleaving of concurrently
acquiring threads produces one, since the throttler's counters are
synchronized — no more than `N` acquisitions complete within any interval
of length `W`. -/
theorem throttler_window_bound (N W : Nat) (trace : List Nat) (x : Nat)
    (hvalid : ValidTrace N W trace = true) :
    trace.countP (inWindow x W) ≤ N := by
  by_contra hgt
  push_neg at hgt
  obtain ⟨a, t, b, hsplit, hpt, hcnt, _⟩ :=
    exists_last_countP (inWindow x W) trace (by omega)
  have hwin : windowCount W t ([] ++ a) < N :=
    validFrom_decomp N W a t b [] (hsplit ▸ hvalid)
  simp only [List.nil_append] at hwin
  have hmono : a.countP (inWindow x W) ≤ windowCount W t a := by
    apply List.countP_mono_left
    intro u _ hpu
    simp only [inWindow, Bool.and_eq_true, decide_eq_true_eq] at hpu hpt
    simp only [decide_eq_true_eq]
    omega
  omega

/-- Witness for C8: a concrete admissible three-acquisition trace under the
configured capacity and window stays within the bound on the window
starting at time 0. -/
theorem throttler_window_bound_witness :
    List.countP (inWindow 0 throttler_window_secs) [0, 0, 1] ≤
      throttler_capacity :=
  throttler_window_bound throttler_capacity throttler_window_secs [0, 0, 1] 0
    (by decide)

end BloodMoney
